import Mathlib

/-!
Verification development for the cutcrap text-summarization pipeline.

Text is modelled as `List Char` (Go strings are UTF-8; all the operations
involved act either rune-wise or on ASCII bytes, and on valid UTF-8 the
byte-level checks of the source coincide with the char-level model as
argued at each definition).  Stateful / fallible Go code is embedded with
explicit state passing, `Option` for non-returning executions (fuel) and
an explicit error component where the source returns `error`.
-/

set_option maxHeartbeats 1000000

namespace Cutcrap

abbrev Text := List Char

/-- `unicode.IsSpace` from Go (the White_Space property), used by
`strings.Fields` and `strings.TrimSpace`. The full rune set from the Go
`unicode` tables. -/
def goIsSpace (c : Char) : Bool :=
  c.toNat = 9 || c.toNat = 10 || c.toNat = 11 || c.toNat = 12 || c.toNat = 13 ||
  c.toNat = 32 || c.toNat = 133 || c.toNat = 160 || c.toNat = 5760 ||
  (8192 ≤ c.toNat && c.toNat ≤ 8202) || c.toNat = 8232 || c.toNat = 8233 ||
  c.toNat = 8239 || c.toNat = 8287 || c.toNat = 12288

/-- `\s` of Go's regexp package: the ASCII class `[\t\n\f\r ]`. -/
def regexWs (c : Char) : Bool :=
  c.toNat = 9 || c.toNat = 10 || c.toNat = 12 || c.toNat = 13 || c.toNat = 32

/-- `unicode.IsSpace(rune(b))` where `b` is a single BYTE of a UTF-8 string,
as in `splitIntoSentences`'s look-ahead.  A byte below 0x80 is the ASCII char
itself; a byte ≥ 0x80 at a char boundary is a UTF-8 lead byte (≥ 0xC2), and
no rune value 0xC2..0xF4 is a space.  So at the char level the check holds
exactly for the ASCII whitespace chars. -/
def goByteSpace (c : Char) : Bool :=
  c.toNat = 9 || c.toNat = 10 || c.toNat = 11 || c.toNat = 12 || c.toNat = 13 ||
  c.toNat = 32

/-- `strings.Fields`: split around (and drop) maximal runs of whitespace.
Accumulator-based so that it reduces definitionally. `acc` is the word
currently being read, in order. -/
def fieldsAux : Text → Text → List Text
  | [], acc => if acc = [] then [] else [acc]
  | c :: cs, acc =>
    if goIsSpace c then
      if acc = [] then fieldsAux cs [] else acc :: fieldsAux cs []
    else fieldsAux cs (acc ++ [c])

def fields (s : Text) : List Text := fieldsAux s []

/-- Number of words of a string, `len(strings.Fields(s))` in the source. -/
def numWords (s : Text) : Nat := (fields s).length

/-- `strings.Join(ws, sep)`. -/
def joinWith (sep : Text) : List Text → Text
  | [] => []
  | [w] => w
  | w :: ws => w ++ sep ++ joinWith sep ws

/-- `strings.Join(ws, " ")`. -/
def joinSp : List Text → Text
  | [] => []
  | [w] => w
  | w :: ws => w ++ ' ' :: joinSp ws

/-- `strings.TrimSpace` (rune-based, Unicode). -/
def trimSpace (s : Text) : Text :=
  ((s.dropWhile goIsSpace).reverse.dropWhile goIsSpace).reverse

/-- `strings.Trim(s, cutset)`: drop cutset runes from both ends. -/
def trimCutset (cut : List Char) (s : Text) : Text :=
  ((s.dropWhile (· ∈ cut)).reverse.dropWhile (· ∈ cut)).reverse

/-- `strings.ReplaceAll(s, pat, rep)` with fuel (each step consumes at least
one char of `s` when `pat` is nonempty, so `s.length` fuel suffices).
Left-to-right, non-overlapping, exactly Go's semantics. -/
def replaceAllF (pat rep : Text) : Nat → Text → Text
  | 0, s => s
  | _ + 1, [] => []
  | fuel + 1, c :: cs =>
    if pat ≠ [] ∧ pat.isPrefixOf (c :: cs) then
      rep ++ replaceAllF pat rep fuel (List.drop (pat.length - 1) cs)
    else c :: replaceAllF pat rep fuel cs

def replaceAll (pat rep s : Text) : Text := replaceAllF pat rep s.length s

/-- `strings.Split(s, sep)` for a one-char separator (used with `"\n"`). -/
def splitOnChar (sep : Char) : Text → List Text
  | [] => [[]]
  | c :: cs =>
    if c = sep then [] :: splitOnChar sep cs
    else
      match splitOnChar sep cs with
      | [] => [[c]]
      | h :: t => (c :: h) :: t

/-- Split on a multi-char separator, with fuel (used with `"\n\n"` when
counting the blocks of a reassembled transcript). -/
def splitOnSubF (sep : Text) : Nat → Text → List Text
  | 0, s => [s]
  | _ + 1, [] => [[]]
  | fuel + 1, c :: cs =>
    if sep ≠ [] ∧ sep.isPrefixOf (c :: cs) then
      [] :: splitOnSubF sep fuel (List.drop (sep.length - 1) cs)
    else
      match splitOnSubF sep fuel cs with
      | [] => [[c]]
      | h :: t => (c :: h) :: t

def splitOnSub (sep s : Text) : List Text := splitOnSubF sep s.length s

/-- Convenience: view a Lean string literal as the `Text` it denotes. -/
def lit (s : String) : Text := s.data

end Cutcrap

namespace Cutcrap

/-! ## pkg/chunker (src/unnamed/part_007, second file) -/

/-- The abbreviation list of `replaceAbbreviations`. -/
def abbreviations : List Text :=
  [ "Mr.", "Mrs.", "Ms.", "Dr.", "Prof.",
    "Inc.", "Ltd.", "Co.", "Corp.",
    "i.e.", "e.g.", "etc.",
    "vs.", "a.m.", "p.m.",
    "U.S.", "U.K.", "E.U." ].map String.data

/-- `replaceAbbreviations`: substitute each abbreviation's periods with the
sentinel `·` (the source computes `strings.ReplaceAll(abbr, ".", "·")` for
the placeholder and substitutes it for the abbreviation in the text). -/
def replaceAbbreviations (text : Text) : Text :=
  abbreviations.foldl
    (fun result abbr => replaceAll abbr (replaceAll ([ '.' ]) ([ '·' ]) abbr) result)
    text

/-- The boundary test of `splitIntoSentences`: the current byte is `.`, `!`
or `?` and the next byte (if any) satisfies `unicode.IsSpace` when cast to a
rune (see `goByteSpace`). -/
def sentenceBoundary (c : Char) (rest : Text) : Bool :=
  (c = '.' || c = '!' || c = '?') &&
  (rest = [] || goByteSpace (rest.headD ' '))

/-- Flush of the sentence builder: trim, keep only if it has at least one
word (`len(strings.Fields(sentence)) > 0`). -/
def flushSentence (acc : Text) : List Text :=
  if acc = [] then []
  else
    let sentence := trimSpace acc
    if numWords sentence > 0 then [sentence] else []

/-- The character scan of `splitIntoSentences`, with the pending builder. -/
def splitSentencesAux : Text → Text → List Text
  | [], acc => flushSentence acc
  | c :: rest, acc =>
    if sentenceBoundary c rest then
      flushSentence (acc ++ [c]) ++ splitSentencesAux rest []
    else splitSentencesAux rest (acc ++ [c])

def splitIntoSentences (text : Text) : List Text :=
  splitSentencesAux (replaceAbbreviations text) []

/-- The loop of `createChunksFromSentences`.  `cur` is the accumulated
builder content (each step appends `sentence ++ " "`), `cwc` the tracked
word count.  A chunk is closed before adding a sentence when
`cwc > 0 && cwc + sentenceWords > targetChunkSize` (Go ints: the target may
be any integer). -/
def chunksAux (target : Int) : List Text → Text → Nat → List Text
  | [], cur, _ => if cur = [] then [] else [trimSpace cur]
  | s :: rest, cur, cwc =>
    let sw := numWords s
    if 0 < cwc ∧ target < (cwc : Int) + (sw : Int) then
      trimSpace cur :: chunksAux target rest (s ++ [' ']) sw
    else chunksAux target rest (cur ++ s ++ [' ']) (cwc + sw)

def createChunksFromSentences (sentences : List Text) (targetChunkSize : Int) :
    List Text :=
  chunksAux targetChunkSize sentences [] 0

/-- `ChunkText`: normalize line breaks to spaces, split into sentences, pack
greedily.  The error component of the Go return is `none` at the single
return site (`return createChunksFromSentences(...), nil`). -/
def ChunkText (content : Text) (chunkSize : Int) : List Text × Option Text :=
  let c1 := replaceAll (lit "\r\n") ([ ' ' ]) content
  let c2 := replaceAll ([ '\n' ]) ([ ' ' ]) c1
  (createChunksFromSentences (splitIntoSentences c2) chunkSize, none)

/-! Spec-side view of the greedy packer: the same loop at the level of
sentence groups, so that "which sentences went into which chunk" is
explicit.  `chunksAux` is proved equal to the rendering of these groups. -/

/-- Render a group of sentences the way the builder accumulates them:
each sentence followed by one space, trimmed at flush time. -/
def renderChunk (g : List Text) : Text :=
  trimSpace ((g.map (fun s => s ++ [' '])).flatten)

def packAux (target : Int) : List Text → List Text → Nat → List (List Text)
  | [], cur, _ => if cur = [] then [] else [cur]
  | s :: rest, cur, cwc =>
    let sw := numWords s
    if 0 < cwc ∧ target < (cwc : Int) + (sw : Int) then
      cur :: packAux target rest [s] sw
    else packAux target rest (cur ++ [s]) (cwc + sw)

def packGroups (sentences : List Text) (target : Int) : List (List Text) :=
  packAux target sentences [] 0

/-- Total tracked word count of a group of sentences. -/
def sumWords (g : List Text) : Nat := (g.map numWords).sum

/-- Number of sentences of a group that contain at least one word. -/
def wordfulCount (g : List Text) : Nat :=
  (g.filter (fun s => decide (0 < numWords s))).length

/-- Outcome of one call to `ChunkTextBySpace`'s window loop within a given
amount of fuel:  `ret` = the loop finished and these chunks were collected
(in order); `panicked` = a slice expression `words[i:end]` was out of range
(a Go runtime panic). -/
inductive BOut where
  | ret (chunks : List Text)
  | panicked
deriving DecidableEq, Repr

/-- Go slice `words[i:end]` with int indices: panics unless
`0 ≤ i ≤ end ≤ len`. -/
def goSlice (ws : List Text) (i e : Int) : Option (List Text) :=
  if 0 ≤ i ∧ i ≤ e ∧ e ≤ (ws.length : Int) then
    some ((ws.drop i.toNat).take (e - i).toNat)
  else none

/-- The window loop of `ChunkTextBySpace`:
`for i := 0; i < len(words); i += (chunkSize - overlap)` with
`end := i + chunkSize` clamped to `len(words)`, appending
`strings.Join(words[i:end], " ")` and breaking when `end == len(words)`.
`none` means the fuel ran out, i.e. the loop has not returned within that
many iterations (with a non-positive step the loop never returns). -/
def bspaceLoop (ws : List Text) (k ov : Int) : Nat → Int → Option BOut
  | 0, _ => none
  | fuel + 1, i =>
    if i < (ws.length : Int) then
      let e := if (ws.length : Int) < i + k then (ws.length : Int) else i + k
      match goSlice ws i e with
      | none => some .panicked
      | some window =>
        if e = (ws.length : Int) then some (.ret [joinSp window])
        else
          match bspaceLoop ws k ov fuel (i + (k - ov)) with
          | none => none
          | some .panicked => some .panicked
          | some (.ret rest) => some (.ret (joinSp window :: rest))
    else some (.ret [])

/-- Observable outcome of a full `ChunkTextBySpace` call: a normal return
carries the chunk list and the Go `error` value (which is `nil` at both
return sites of the source), or the run died in a slice-bounds panic. -/
inductive BRet where
  | ret (chunks : List Text) (err : Option Text)
  | panicked
deriving DecidableEq, Repr

/-- The normalized content of `ChunkTextBySpace`: line breaks to spaces,
then `strings.Join(strings.Fields(content), " ")`. -/
def bspaceContent (content : Text) : Text :=
  joinSp (fields (replaceAll ([ '\n' ]) ([ ' ' ])
    (replaceAll (lit "\r\n") ([ ' ' ]) content)))

/-- The word sequence `ChunkTextBySpace` slides its window over. -/
def bspaceWords (content : Text) : List Text := fields (bspaceContent content)

/-- `ChunkTextBySpace` with fuel for the window loop; `none` means the call
has not returned within that much fuel. -/
def ChunkTextBySpace (content : Text) (chunkSize overlap : Int) (fuel : Nat) :
    Option BRet :=
  let c3 := bspaceContent content
  let words := fields c3
  if (words.length : Int) ≤ chunkSize then some (.ret [c3] none)
  else
    match bspaceLoop words chunkSize overlap fuel 0 with
    | none => none
    | some .panicked => some .panicked
    | some (.ret chunks) => some (.ret chunks none)

/-- Spec-side windows: the window starting at word `j`, then (unless that
window already reaches the end) the windows from `j + step` on.  Fuel-based
like the loop; `kN`/`stepN` are the window size and step as naturals. -/
def winF (ws : List Text) (kN stepN : Nat) : Nat → Nat → List Text
  | 0, _ => []
  | fuel + 1, j =>
    joinSp ((ws.drop j).take kN) ::
      (if ws.length ≤ j + kN then [] else winF ws kN stepN fuel (j + stepN))

/-! ## pkg/transcript/formatter.go (current revision) -/

/-- `FormatTranscript` (current revision): normalize `\r\n` to `\n`, trim. -/
def FormatTranscript (text : Text) : Text :=
  trimSpace (replaceAll (lit "\r\n") ([ '\n' ]) text)

/-- `regexp.MustCompile("\n{2,}").ReplaceAllString(s, "\n")`: every maximal
run of two or more newlines becomes a single newline.  Fuel-based so it
reduces; each step consumes at least one char. -/
def collapseNLF : Nat → Text → Text
  | 0, s => s
  | _ + 1, [] => []
  | fuel + 1, c :: cs =>
    if c = '\n' ∧ cs.headD ' ' = '\n' then
      '\n' :: collapseNLF fuel (cs.dropWhile (· = '\n'))
    else c :: collapseNLF fuel cs

def collapseNL (s : Text) : Text := collapseNLF s.length s

/-- Step 1 of `CombineTranscriptChunks`: append each non-empty formatted
chunk followed by `"\n"`, re-normalize `\r\n`, collapse blank lines, trim. -/
def combineStep1 (chunks : List Text) : Text :=
  let built := chunks.foldl
    (fun b chunk =>
      let f := FormatTranscript chunk
      if f = [] then b else b ++ f ++ [ '\n' ]) []
  trimSpace (collapseNL (replaceAll (lit "\r\n") ([ '\n' ]) built))

/-- The regex `^([^:]+):\s*(.*)$` applied to a trimmed line, followed by the
`TrimSpace` the source applies to both groups: group 1 is everything before
the first colon (it must be nonempty), group 2 the rest of the line. -/
def speakerLineMatch (l : Text) : Option (Text × Text) :=
  match l.findIdx? (· = ':') with
  | none => none
  | some idx =>
    if idx = 0 then none
    else some (trimSpace (l.take idx), trimSpace (l.drop (idx + 1)))

/-- `flushSpeakerBlock`: emit `**speaker**: speech` when a speaker with
accumulated speech is pending. -/
def flushBlock (cs csp : Text) : List Text :=
  if cs ≠ [] ∧ csp ≠ [] then [lit "**" ++ cs ++ lit "**: " ++ trimSpace csp]
  else []

/-- The merge loop of `CombineTranscriptChunks` (Step 2): state = current
speaker (`""` = none yet), accumulated speech, emitted blocks. -/
def mergeLoop : List Text → Text → Text → List Text → List Text
  | [], cs, csp, acc => acc ++ flushBlock cs csp
  | line :: rest, cs, csp, acc =>
    let t := trimSpace line
    if t = [] then mergeLoop rest cs csp acc
    else
      match speakerLineMatch t with
      | none => mergeLoop rest cs csp acc
      | some (sp, speech) =>
        if speech = [] then mergeLoop rest cs csp acc
        else if sp = cs then
          mergeLoop rest cs (if csp = [] then speech else csp ++ ' ' :: speech) acc
        else mergeLoop rest sp speech (acc ++ flushBlock cs csp)

def CombineTranscriptChunks (chunks : List Text) : Text :=
  joinWith (lit "\n\n")
    (mergeLoop (splitOnChar '\n' (combineStep1 chunks)) [] [] [])

/-! Spec-side view of the merge: the parsed speaker lines, their maximal
runs of consecutive equal speakers, and the rendering of each run. -/

/-- The speaker lines the merge loop acts on: non-blank lines matching the
speaker pattern with non-empty speech. -/
def plinesOf (lines : List Text) : List (Text × Text) :=
  lines.filterMap (fun line =>
    let t := trimSpace line
    if t = [] then none
    else
      match speakerLineMatch t with
      | none => none
      | some (sp, speech) => if speech = [] then none else some (sp, speech))

/-- Maximal runs of consecutive pairs with equal first component. -/
def speakerRuns : List (Text × Text) → List (Text × List Text)
  | [] => []
  | (s, t) :: rest =>
    match speakerRuns rest with
    | [] => [(s, [t])]
    | (s', ts) :: more =>
      if s = s' then (s, t :: ts) :: more else (s, [t]) :: (s', ts) :: more

def renderRuns (rs : List (Text × List Text)) : List Text :=
  rs.map (fun r => lit "**" ++ r.1 ++ lit "**: " ++ trimSpace (joinWith ([ ' ' ]) r.2))

/-- The merge loop restricted to the parsed speaker lines (blank lines,
orphan lines and empty-speech lines leave the loop state untouched, so the
loop factors through `plinesOf`). -/
def mergeP : List (Text × Text) → Text → Text → List Text → List Text
  | [], cs, csp, acc => acc ++ flushBlock cs csp
  | (sp, speech) :: rest, cs, csp, acc =>
    if sp = cs then
      mergeP rest cs (if csp = [] then speech else csp ++ ' ' :: speech) acc
    else mergeP rest sp speech (acc ++ flushBlock cs csp)

/-- Speaker of a raw line, if any (for counting the runs the original claim
speaks about: a line with no speaker pattern breaks every run). -/
def lineSpeakerOf (l : Text) : Option Text :=
  (speakerLineMatch (trimSpace l)).map Prod.fst

def runCountAux : Option Text → List (Option Text) → Nat
  | _, [] => 0
  | _, none :: rest => runCountAux none rest
  | prev, some s :: rest =>
    (if prev = some s then 0 else 1) + runCountAux (some s) rest

/-- Number of maximal runs of consecutive same-speaker lines. -/
def countSpeakerRuns (ls : List (Option Text)) : Nat := runCountAux none ls

/-! ## ParseSpeakerAnalysis (pkg/transcript/formatter.go)

The source matches each trimmed line against the Go regexp
`^\s*-\s*\**([^:]+?)\**\s*:\s*\**([^,\n*]+?)\**\s*(?:[,\n].*)?$`
and trims the two groups with `strings.Trim(strings.TrimSpace(m), "* ")`.
The functions below implement that regexp's leftmost-first (backtracking)
semantics for this fixed pattern: greedy `\s*` and `\**` take maximal runs
first, the lazy groups take the shortest extent whose remainder still
matches, and on failure the greedy pieces give back characters in engine
order. -/

def starRunLen (s : Text) : Nat := (s.takeWhile (· = '*')).length

def wsRunLen (s : Text) : Nat := (s.takeWhile regexWs).length

/-- Does `s` match `\**\s*` exactly (a star run followed by a whitespace
run)? This is the only way the engine can bridge from group 1 to the colon. -/
def isStarsThenWs (s : Text) : Bool := (s.dropWhile (· = '*')).all regexWs

/-- Does `s` match `\**\s*(?:[,\n].*)?$`?  The star run is forced maximal;
the `\s*` may stop early only at a `\n` (which `[,\n]` can then consume). -/
def tailOk (s : Text) : Bool :=
  let r := (s.dropWhile (· = '*')).dropWhile (fun c => regexWs c && c ≠ '\n')
  r = [] || r.headD ' ' = ',' || r.headD ' ' = '\n'

/-- Lazy group 1 (`[^:]+?`): shortest nonempty prefix whose remainder (up
to the colon) is stars-then-whitespace.  The input is colon-free. -/
def g1Search (acc : Text) : Text → Option Text
  | [] => none
  | c :: rs =>
    if isStarsThenWs rs then some (acc ++ [c]) else g1Search (acc ++ [c]) rs

/-- Lazy group 2 (`[^,\n*]+?`): shortest nonempty prefix of allowed chars
whose remainder matches `\**\s*(?:[,\n].*)?$`. -/
def g2Search (acc : Text) : Text → Option Text
  | [] => none
  | c :: rs =>
    if c = ',' ∨ c = '\n' ∨ c = '*' then none
    else if tailOk rs then some (acc ++ [c]) else g2Search (acc ++ [c]) rs

/-- The part of the pattern after the colon.  When the lazy search fails
with the maximal `\s*`/`\**` prefixes, the engine backtracks: reducing the
star run only offers `*` to the group (excluded), so the first successful
retry hands the last whitespace char to the group — possible exactly when
the whitespace run is nonempty and what follows the stars is empty or
starts with `,`/`\n`; the group is then that single whitespace char. -/
def matchAfterColon (q : Text) : Option Text :=
  let c := wsRunLen q
  let q1 := q.drop c
  let d := starRunLen q1
  let q2 := q1.drop d
  match g2Search [] q2 with
  | some g => some g
  | none =>
    if 0 < c ∧ (q2 = [] ∨ q2.headD ' ' = ',' ∨ q2.headD ' ' = '\n') then
      some [q.getD (c - 1) ' ']
    else none

/-- Full match of the speaker-analysis pattern against a trimmed line.
The line is already `TrimSpace`d, so the leading `\s*` is empty and the
first char must be `-`.  Group 1 lives between the greedy `-\s*\**` and the
first colon; if that region is all whitespace/stars the engine backtracks
until the group holds exactly the region's last character. -/
def matchSpeakerPattern : Text → Option (Text × Text)
  | [] => none
  | ch :: r =>
    if ch ≠ '-' then none
    else
      match r.findIdx? (· = ':') with
      | none => none
      | some idx =>
        let p := r.take idx
        let q := r.drop (idx + 1)
        if p = [] then none
        else
          let p1 := p.drop (wsRunLen p)
          let p2 := p1.drop (starRunLen p1)
          let g1 :=
            match g1Search [] p2 with
            | some g => g
            | none => [p.getLastD ' ']
          match matchAfterColon q with
          | none => none
          | some g2 => some (g1, g2)

/-- Role/name extraction of one line: the regex match followed by
`strings.Trim(strings.TrimSpace(m), "* ")` on each group. -/
def roleNameOfLine (trimmedLine : Text) : Option (Text × Text) :=
  match matchSpeakerPattern trimmedLine with
  | none => none
  | some (m1, m2) =>
    some (trimCutset ([ '*', ' ' ]) (trimSpace m1),
          trimCutset ([ '*', ' ' ]) (trimSpace m2))

def lookupRole : List (Text × Text) → Text → Option Text
  | [], _ => none
  | (a, b) :: t, r => if a = r then some b else lookupRole t r

/-- One line of the parse loop acting on the accumulated mapping. -/
def parseLineStep (m : List (Text × Text)) (t : Text) : List (Text × Text) :=
  match roleNameOfLine t with
  | none => m
  | some (role, name) =>
    if role ≠ [] ∧ name ≠ [] ∧ role ≠ lit "Total Speakers" then
      match lookupRole m role with
      | some _ => m
      | none => m ++ [(role, name)]
    else m

/-- The line loop with the `foundListStart` flag. -/
def parseLines : List Text → Bool → List (Text × Text) → List (Text × Text)
  | [], _, m => m
  | line :: rest, found, m =>
    let t := trimSpace line
    if found then parseLines rest true (parseLineStep m t)
    else if t.headD ' ' = '-' then parseLines rest true (parseLineStep m t)
    else parseLines rest false m

/-- `ParseSpeakerAnalysis`: the mapping as an association list in insertion
order (first occurrence of a role wins).  Total: no error is ever produced. -/
def ParseSpeakerAnalysis (analysis : Text) : List (Text × Text) :=
  if analysis = [] then []
  else parseLines (splitOnChar '\n' analysis) false []

/-! ## pkg/workers (src/unnamed/part_005) -/

/-- The collector of `ProcessChunks`: result slots indexed by position,
initialized to `""`; each arriving report `(index, content, err)` writes its
content into its own slot unless it carries an error.  `order` is the order
in which worker completions arrive on the result channel. -/
def collectResults (n : Nat) (report : Fin n → Text × Bool)
    (order : List (Fin n)) : Fin n → Text :=
  order.foldl
    (fun res j => if (report j).2 then res else Function.update res j (report j).1)
    (fun _ => [])

/-- `ProcessChunks`, collection and filter phase: after all reports arrive,
keep the trimmed slot contents that are non-empty, in slot (= original
segment) order. -/
def ProcessChunks (n : Nat) (report : Fin n → Text × Bool)
    (order : List (Fin n)) : List Text :=
  (List.finRange n).filterMap (fun i =>
    let t := trimSpace (collectResults n report order i)
    if t = [] then none else some t)

/-! The semaphore discipline of `ProcessChunks` as a transition system.
Each worker's life: a slot is acquired (`semaphore <- struct{}{}`) before
the goroutine starts its transform; the transform runs and finishes (in
success, failure or cancellation alike — the release sits in a `defer`);
the slot is then released (`<-semaphore`).  The semaphore is a channel of
capacity `k = cfg.MaxConcurrent`: an acquire can only happen while fewer
than `k` slots are held. -/

inductive Phase where
  | idle | acquired | running | done | released
deriving DecidableEq, Repr

/-- A slot is held from acquire until release. -/
def holdsSlot : Phase → Bool
  | .acquired => true
  | .running => true
  | .done => true
  | _ => false

def heldCount (s : List Phase) : Nat := s.countP holdsSlot

def inFlight (s : List Phase) : Nat := s.countP (fun p => p = Phase.running)

inductive PoolStep (k : Nat) : List Phase → List Phase → Prop
  | acquire (s : List Phase) (i : Nat) (hi : s.get? i = some .idle)
      (hk : heldCount s < k) : PoolStep k s (s.set i .acquired)
  | start (s : List Phase) (i : Nat) (hi : s.get? i = some .acquired) :
      PoolStep k s (s.set i .running)
  | finish (s : List Phase) (i : Nat) (hi : s.get? i = some .running) :
      PoolStep k s (s.set i .done)
  | release (s : List Phase) (i : Nat) (hi : s.get? i = some .done) :
      PoolStep k s (s.set i .released)

/-- States reachable by the pool with `n` workers and concurrency limit `k`. -/
def PoolReachable (k n : Nat) (s : List Phase) : Prop :=
  Relation.ReflTransGen (PoolStep k) (List.replicate n .idle) s

/-! ## ProcessTranscript (src/unnamed/part_005) -/

/-- Outcomes of the external collaborators of `ProcessTranscript`:
the speaker-analysis call (error flag and raw reply), the two cancellation
checks, and the chunk-processing phase (a function of the chunks and the
speaker map, abstracting the API-bound worker pool). -/
structure TOracle where
  analysisErr : Bool
  analysisRaw : Text
  cancelledA : Bool
  processed : List Text → List (Text × Text) → List Text
  cancelledP : Bool

/-- `ProcessTranscript`: analyze (falling back to `""` on error), check
cancellation, parse the speaker map, chunk, process with the map, combine.
`none` = the call never returns normally (chunker divergence or panic). -/
def ProcessTranscript (o : TOracle) (text : Text) (k ov : Int) (fuel : Nat) :
    Option Text :=
  let raw := if o.analysisErr then [] else o.analysisRaw
  if o.cancelledA then some [] else
  let m := ParseSpeakerAnalysis raw
  match ChunkTextBySpace text k ov fuel with
  | none => none
  | some .panicked => none
  | some (.ret chunks err) =>
    match err with
    | some _ => some []
    | none =>
      if chunks = [] then some [] else
      let processedChunks := o.processed chunks m
      if o.cancelledP then some [] else
      if processedChunks = [] then some [] else
      some (CombineTranscriptChunks processedChunks)

end Cutcrap

namespace Cutcrap

/-! ## Lemmas about `fields` and `trimSpace` -/

theorem fieldsAux_ne_nil (s acc : Text) (h : acc ≠ []) : fieldsAux s acc ≠ [] := by
  induction s generalizing acc with
  | nil => simpa [fieldsAux] using h
  | cons c cs ih =>
    by_cases hws : goIsSpace c
    · simp only [fieldsAux, hws, if_true, h, if_neg h]
      exact List.cons_ne_nil _ _
    · simp only [fieldsAux, hws]
      exact ih (acc ++ [c]) (by simp)

theorem fieldsAux_allWs (s : Text) (hs : ∀ c ∈ s, goIsSpace c) (acc : Text) :
    fieldsAux s acc = if acc = [] then [] else [acc] := by
  induction s generalizing acc with
  | nil => rfl
  | cons c cs ih =>
    have hc : goIsSpace c := hs c (by simp)
    have hcs : ∀ x ∈ cs, goIsSpace x := fun x hx => hs x (by simp [hx])
    by_cases ha : acc = []
    · simp [fieldsAux, hc, ha, ih hcs]
    · simp [fieldsAux, hc, ha, ih hcs]

theorem fieldsAux_space (a : Text) :
    ∀ (acc b : Text), fieldsAux (a ++ ' ' :: b) acc = fieldsAux a acc ++ fieldsAux b [] := by
  induction a with
  | nil =>
    intro acc b
    by_cases ha : acc = [] <;>
      simp [fieldsAux, goIsSpace, ha]
  | cons c cs ih =>
    intro acc b
    by_cases hws : goIsSpace c
    · by_cases ha : acc = [] <;> simp [fieldsAux, hws, ha, ih]
    · simp [fieldsAux, hws, ih]

theorem fieldsAux_ws_suffix (w : Text) (hw : ∀ c ∈ w, goIsSpace c) (s : Text) :
    ∀ acc, fieldsAux (s ++ w) acc = fieldsAux s acc := by
  induction s with
  | nil =>
    intro acc
    rw [List.nil_append, fieldsAux_allWs w hw acc]
    rfl
  | cons c cs ih =>
    intro acc
    by_cases hws : goIsSpace c <;> by_cases ha : acc = [] <;>
      simp [fieldsAux, hws, ha, ih]

theorem fieldsAux_dropWhile (s : Text) :
    fieldsAux (s.dropWhile goIsSpace) [] = fieldsAux s [] := by
  induction s with
  | nil => rfl
  | cons c cs ih =>
    by_cases hws : goIsSpace c
    · simpa [List.dropWhile, hws, fieldsAux] using ih
    · simp [List.dropWhile, hws]

/-- `trimSpace` drops a whitespace run from each end: the `dropWhile` view. -/
theorem trimSpace_decomp (s : Text) :
    ∃ w, s.dropWhile goIsSpace = trimSpace s ++ w ∧ ∀ c ∈ w, goIsSpace c := by
  refine ⟨((s.dropWhile goIsSpace).reverse.takeWhile goIsSpace).reverse, ?_, ?_⟩
  · unfold trimSpace
    conv_lhs => rw [← List.reverse_reverse (s.dropWhile goIsSpace)]
    rw [← List.reverse_append, List.takeWhile_append_dropWhile]
  · intro c hc
    rw [List.mem_reverse] at hc
    exact List.mem_takeWhile_imp hc

theorem fields_trimSpace (s : Text) : fields (trimSpace s) = fields s := by
  obtain ⟨w, hw, hws⟩ := trimSpace_decomp s
  unfold fields
  rw [← fieldsAux_dropWhile s, hw, fieldsAux_ws_suffix w hws]

theorem fields_nil_iff_allWs (s : Text) :
    fields s = [] ↔ ∀ c ∈ s, goIsSpace c := by
  constructor
  · intro h c hc
    induction s with
    | nil => simp at hc
    | cons x xs ih =>
      by_cases hws : goIsSpace x
      · rw [List.mem_cons] at hc
        rcases hc with rfl | hc
        · exact hws
        · exact ih (by simpa [fields, fieldsAux, hws] using h) hc
      · exact absurd h (by
          simp only [fields, fieldsAux, hws, if_neg]
          exact fieldsAux_ne_nil xs [x] (by simp))
  · intro h
    simpa using fieldsAux_allWs s h []

theorem fields_nil_of_trimSpace_nil (s : Text) (h : trimSpace s = []) :
    fields s = [] := by
  rw [← fields_trimSpace, h]
  rfl

/-! ## Lemmas about the greedy sentence packer -/

theorem fields_flatten_sp (g : List Text) :
    fields ((g.map (fun s => s ++ [' '])).flatten) = (g.map fields).flatten := by
  induction g with
  | nil => rfl
  | cons s gs ih =>
    have h1 : ((s :: gs).map (fun s => s ++ [' '])).flatten =
        s ++ ' ' :: (gs.map (fun s => s ++ [' '])).flatten := by
      simp
    rw [h1]
    show fieldsAux (s ++ ' ' :: (gs.map (fun s => s ++ [' '])).flatten) [] = _
    rw [fieldsAux_space]
    exact congrArg (fields s ++ ·) ih

theorem fields_renderChunk (g : List Text) :
    fields (renderChunk g) = (g.map fields).flatten := by
  unfold renderChunk
  rw [fields_trimSpace, fields_flatten_sp]

theorem flatten_sp_nil_iff (g : List Text) :
    (g.map (fun s => s ++ [' '])).flatten = [] ↔ g = [] := by
  cases g with
  | nil => simp
  | cons s gs => simp

theorem chunksAux_eq_pack (t : Int) :
    ∀ (rest : List Text) (g : List Text) (cwc : Nat),
      chunksAux t rest ((g.map (fun s => s ++ [' '])).flatten) cwc =
        (packAux t rest g cwc).map renderChunk := by
  intro rest
  induction rest with
  | nil =>
    intro g cwc
    by_cases hg : g = []
    · subst hg; rfl
    · have hne : ((g.map (fun s => s ++ [' '])).flatten) ≠ [] := by
        intro hnil
        exact hg ((flatten_sp_nil_iff g).mp hnil)
      simp [chunksAux, packAux, hg, hne, renderChunk]
  | cons s rest ih =>
    intro g cwc
    by_cases hc : 0 < cwc ∧ t < (cwc : Int) + (numWords s : Int)
    · simp only [chunksAux, packAux, if_pos hc]
      refine congrArg₂ List.cons rfl ?_
      have h1 : (List.map (fun x => x ++ [' ']) [s]).flatten = s ++ [' '] := by simp
      rw [← h1]
      exact ih [s] (numWords s)
    · simp only [chunksAux, packAux, if_neg hc]
      have h2 : ((g.map (fun x => x ++ [' '])).flatten) ++ s ++ [' '] =
          (((g ++ [s]).map (fun x => x ++ [' '])).flatten) := by simp
      rw [h2]
      exact ih (g ++ [s]) (cwc + numWords s)

theorem createChunks_eq_pack (sentences : List Text) (t : Int) :
    createChunksFromSentences sentences t = (packGroups sentences t).map renderChunk := by
  have := chunksAux_eq_pack t sentences [] 0
  simpa [createChunksFromSentences, packGroups] using this

theorem packAux_flatten (t : Int) :
    ∀ (rest g : List Text) (cwc : Nat),
      (packAux t rest g cwc).flatten = g ++ rest := by
  intro rest
  induction rest with
  | nil =>
    intro g cwc
    by_cases hg : g = [] <;> simp [packAux, hg]
  | cons s rest ih =>
    intro g cwc
    by_cases hc : 0 < cwc ∧ t < (cwc : Int) + (numWords s : Int) <;>
      simp [packAux, hc, ih]

theorem wordful_pos (g : List Text) (h : 1 ≤ wordfulCount g) : 0 < sumWords g := by
  unfold wordfulCount at h
  have hne : g.filter (fun s => decide (0 < numWords s)) ≠ [] := by
    intro hnil
    rw [hnil] at h
    simp at h
  obtain ⟨s, hs⟩ := List.exists_mem_of_ne_nil _ hne
  have hmem : s ∈ g := List.mem_of_mem_filter hs
  have hpos : 0 < numWords s := by
    have := List.of_mem_filter hs
    simpa using this
  have : numWords s ≤ sumWords g := by
    unfold sumWords
    exact List.single_le_sum (fun x _ => Nat.zero_le x) _ (List.mem_map_of_mem numWords hmem)
  omega

theorem sumWords_append (g : List Text) (s : Text) :
    sumWords (g ++ [s]) = sumWords g + numWords s := by
  simp [sumWords]

theorem wordfulCount_append_le (g : List Text) (s : Text) :
    wordfulCount g ≤ wordfulCount (g ++ [s]) ∧
      wordfulCount (g ++ [s]) ≤ wordfulCount g + 1 := by
  unfold wordfulCount
  rw [List.filter_append]
  constructor
  · simp
  · by_cases h : decide (0 < numWords s) = true <;> simp [List.filter, h]

theorem packAux_props (t : Int) :
    ∀ (rest g : List Text) (cwc : Nat),
      cwc = sumWords g →
      (2 ≤ wordfulCount g → (sumWords g : Int) ≤ t) →
      ∀ h ∈ packAux t rest g cwc,
        h ≠ [] ∧ (2 ≤ wordfulCount h → (sumWords h : Int) ≤ t) := by
  intro rest
  induction rest with
  | nil =>
    intro g cwc hsum hbd h hh
    by_cases hg : g = []
    · simp [packAux, hg] at hh
    · simp only [packAux, hg, if_neg, if_false, List.mem_singleton] at hh
      subst hh
      exact ⟨hg, hbd⟩
  | cons s rest ih =>
    intro g cwc hsum hbd h hh
    by_cases hc : 0 < cwc ∧ t < (cwc : Int) + (numWords s : Int)
    · simp only [packAux, if_pos hc, List.mem_cons] at hh
      rcases hh with rfl | hh
      · refine ⟨?_, hbd⟩
        intro hnil
        rw [hnil] at hsum
        simp [sumWords] at hsum
        omega
      · refine ih [s] (numWords s) (by simp [sumWords]) ?_ h hh
        intro h2
        exfalso
        have : wordfulCount [s] ≤ 1 := by
          unfold wordfulCount
          by_cases hp : decide (0 < numWords s) = true <;> simp [List.filter, hp]
        omega
    · simp only [packAux, if_neg hc] at hh
      refine ih (g ++ [s]) (cwc + numWords s)
        (by rw [sumWords_append, hsum]) ?_ h hh
      intro h2
      have hle := wordfulCount_append_le g s
      have h1 : 1 ≤ wordfulCount g := by omega
      have hpos : 0 < sumWords g := wordful_pos g h1
      have hcwc : 0 < cwc := by omega
      have hnc : ¬ t < (cwc : Int) + (numWords s : Int) := fun hlt => hc ⟨hcwc, hlt⟩
      rw [sumWords_append, ← hsum]
      push_cast
      omega

/-! ## Lemmas about sentence splitting -/

theorem flushSentence_wordful (acc s : Text) (h : s ∈ flushSentence acc) :
    0 < numWords s := by
  unfold flushSentence at h
  by_cases ha : acc = []
  · simp [ha] at h
  · simp only [ha, if_neg, if_false] at h
    by_cases hw : numWords (trimSpace acc) > 0
    · simp only [hw, if_pos, if_true, List.mem_singleton] at h
      subst h; exact hw
    · simp [hw] at h

theorem splitSentencesAux_wordful :
    ∀ (rem acc s : Text), s ∈ splitSentencesAux rem acc → 0 < numWords s := by
  intro rem
  induction rem with
  | nil => exact fun acc s h => flushSentence_wordful acc s h
  | cons c cs ih =>
    intro acc s h
    unfold splitSentencesAux at h
    by_cases hb : sentenceBoundary c cs
    · simp only [hb, if_pos, if_true, List.mem_append] at h
      rcases h with h | h
      · exact flushSentence_wordful _ s h
      · exact ih [] s h
    · simp only [hb, if_neg, if_false] at h
      exact ih (acc ++ [c]) s h

/-! ## Whitespace-only inputs through the chunker -/

theorem replaceAllF_subset (pat rep : Text) :
    ∀ (fuel : Nat) (s : Text), ∀ c ∈ replaceAllF pat rep fuel s, c ∈ s ∨ c ∈ rep := by
  intro fuel
  induction fuel with
  | zero => exact fun s c hc => Or.inl hc
  | succ n ih =>
    intro s c hc
    cases s with
    | nil => simp [replaceAllF] at hc
    | cons x xs =>
      unfold replaceAllF at hc
      by_cases hbr : pat ≠ [] ∧ pat.isPrefixOf (x :: xs)
      · rw [if_pos hbr, List.mem_append] at hc
        rcases hc with hc | hc
        · exact Or.inr hc
        · rcases ih _ c hc with hd | hr
          · exact Or.inl (List.mem_cons_of_mem x (List.mem_of_mem_drop hd))
          · exact Or.inr hr
      · rw [if_neg hbr, List.mem_cons] at hc
        rcases hc with rfl | hc
        · exact Or.inl (List.mem_cons_self _ _)
        · rcases ih _ c hc with hd | hr
          · exact Or.inl (List.mem_cons_of_mem x hd)
          · exact Or.inr hr

theorem replaceAll_allWs (pat rep s : Text) (hs : ∀ c ∈ s, goIsSpace c)
    (hr : ∀ c ∈ rep, goIsSpace c) : ∀ c ∈ replaceAll pat rep s, goIsSpace c := by
  intro c hc
  rcases replaceAllF_subset pat rep s.length s c hc with h | h
  · exact hs c h
  · exact hr c h

theorem replaceAllF_no_match (pat rep : Text) (hp : pat ≠ [])
    (hh : ¬ goIsSpace (pat.headD ' ')) :
    ∀ (fuel : Nat) (s : Text), (∀ c ∈ s, goIsSpace c) →
      replaceAllF pat rep fuel s = s := by
  intro fuel
  induction fuel with
  | zero => intro s _; rfl
  | succ n ih =>
    intro s hs
    cases s with
    | nil => rfl
    | cons x xs =>
      have hbr : ¬ (pat ≠ [] ∧ pat.isPrefixOf (x :: xs)) := by
        rintro ⟨-, hpre⟩
        cases pat with
        | nil => exact hp rfl
        | cons p ps =>
          have : p = x := by
            have := hpre
            simp only [List.isPrefixOf] at this
            exact (Bool.and_eq_true _ _ |>.mp this).1 |> of_decide_eq_true
          subst this
          exact hh (hs p (List.mem_cons_self _ _))
      unfold replaceAllF
      rw [if_neg hbr]
      exact congrArg (x :: ·) (ih xs fun c hc => hs c (List.mem_cons_of_mem x hc))

theorem abbreviations_heads :
    ∀ a ∈ abbreviations, a ≠ [] ∧ ¬ goIsSpace (a.headD ' ') := by decide

theorem replaceAbbreviations_allWs (s : Text) (hs : ∀ c ∈ s, goIsSpace c) :
    replaceAbbreviations s = s := by
  unfold replaceAbbreviations
  have : ∀ (l : List Text), (∀ a ∈ l, a ≠ [] ∧ ¬ goIsSpace (a.headD ' ')) →
      l.foldl (fun result abbr =>
        replaceAll abbr (replaceAll ([ '.' ]) ([ '·' ]) abbr) result) s = s := by
    intro l
    induction l with
    | nil => intro _; rfl
    | cons a as ih =>
      intro hl
      have ha := hl a (List.mem_cons_self _ _)
      have hstep : replaceAll a (replaceAll ([ '.' ]) ([ '·' ]) a) s = s :=
        replaceAllF_no_match a _ ha.1 ha.2 s.length s hs
      simp only [List.foldl_cons, hstep]
      exact ih fun x hx => hl x (List.mem_cons_of_mem a hx)
  exact this abbreviations abbreviations_heads

theorem sentenceBoundary_ws (c : Char) (rest : Text) (h : goIsSpace c) :
    sentenceBoundary c rest = false := by
  have h1 : c ≠ '.' := by rintro rfl; exact absurd h (by decide)
  have h2 : c ≠ '!' := by rintro rfl; exact absurd h (by decide)
  have h3 : c ≠ '?' := by rintro rfl; exact absurd h (by decide)
  simp [sentenceBoundary, h1, h2, h3]

theorem splitSentencesAux_allWs :
    ∀ (rem acc : Text), (∀ c ∈ rem, goIsSpace c) → (∀ c ∈ acc, goIsSpace c) →
      splitSentencesAux rem acc = [] := by
  intro rem
  induction rem with
  | nil =>
    intro acc _ hacc
    show flushSentence acc = []
    unfold flushSentence
    by_cases ha : acc = []
    · simp [ha]
    · have : fields (trimSpace acc) = [] := by
        rw [fields_trimSpace]
        exact (fields_nil_iff_allWs acc).mpr hacc
      simp [ha, numWords, this]
  | cons c cs ih =>
    intro acc hrem hacc
    have hc : goIsSpace c := hrem c (List.mem_cons_self _ _)
    have hcs : ∀ x ∈ cs, goIsSpace x := fun x hx => hrem x (List.mem_cons_of_mem c hx)
    unfold splitSentencesAux
    rw [if_neg (by simp [sentenceBoundary_ws c cs hc])]
    refine ih (acc ++ [c]) hcs ?_
    intro x hx
    rcases List.mem_append.mp hx with hx | hx
    · exact hacc x hx
    · rw [List.mem_singleton] at hx
      subst hx
      exact hc

/-- C10: for every input that is empty or whitespace-only and every
chunkSize, `ChunkText` returns the empty chunk list and a nil error (not a
singleton empty chunk, not an error); moreover no chunk of any `ChunkText`
output is ever empty or whitespace-only. -/
theorem chunkText_blank_input_empty_output :
    (∀ (content : Text) (k : Int), (∀ c ∈ content, goIsSpace c) →
      ChunkText content k = ([], none)) ∧
    (∀ (content : Text) (k : Int), ∀ ch ∈ (ChunkText content k).1,
      trimSpace ch ≠ []) := by
  constructor
  · intro content k hws
    simp only [ChunkText]
    have hsp : goIsSpace ' ' := by decide
    have h1 : ∀ c ∈ replaceAll (lit "\r\n") ([ ' ' ]) content, goIsSpace c :=
      replaceAll_allWs _ _ _ hws (by intro c hc; simp at hc; subst hc; exact hsp)
    have h2 : ∀ c ∈ replaceAll ([ '\n' ]) ([ ' ' ])
        (replaceAll (lit "\r\n") ([ ' ' ]) content), goIsSpace c :=
      replaceAll_allWs _ _ _ h1 (by intro c hc; simp at hc; subst hc; exact hsp)
    have hsent : splitIntoSentences (replaceAll ([ '\n' ]) ([ ' ' ])
        (replaceAll (lit "\r\n") ([ ' ' ]) content)) = [] := by
      unfold splitIntoSentences
      rw [replaceAbbreviations_allWs _ h2]
      exact splitSentencesAux_allWs _ [] h2 (by simp)
    rw [hsent]
    rfl
  · intro content k ch hch
    simp only [ChunkText] at hch
    rw [createChunks_eq_pack] at hch
    set sents := splitIntoSentences (replaceAll ([ '\n' ]) ([ ' ' ])
      (replaceAll (lit "\r\n") ([ ' ' ]) content)) with hsents
    obtain ⟨g, hg, rfl⟩ := List.mem_map.mp hch
    have hprops := packAux_props k sents [] 0 (by simp [sumWords])
      (by intro h; simp [wordfulCount] at h) g hg
    have hgne : g ≠ [] := hprops.1
    obtain ⟨x, hx⟩ := List.exists_mem_of_ne_nil g hgne
    have hxs : x ∈ sents := by
      have hflat : (packGroups sents k).flatten = sents := by
        have := packAux_flatten k sents [] 0
        simpa [packGroups] using this
      rw [← hflat]
      exact List.mem_flatten.mpr ⟨g, hg, hx⟩
    have hxw : 0 < numWords x := splitSentencesAux_wordful _ [] x hxs
    have hfx : fields x ≠ [] := by
      intro hnil
      rw [numWords, hnil] at hxw
      simp at hxw
    obtain ⟨a, ha⟩ := List.exists_mem_of_ne_nil _ hfx
    have : a ∈ (g.map fields).flatten :=
      List.mem_flatten.mpr ⟨fields x, List.mem_map_of_mem fields hx, ha⟩
    intro htrim
    have h0 : fields (renderChunk g) = [] := fields_nil_of_trimSpace_nil _ htrim
    rw [fields_renderChunk] at h0
    rw [h0] at this
    simp at this

/-- C10 witness: a whitespace-only input produces `([], nil)`. -/
theorem chunkText_blank_input_empty_output_witness :
    ChunkText (lit "  \r\n \n ") 7 = ([], none) :=
  chunkText_blank_input_empty_output.1 (lit "  \r\n \n ") 7 (by decide)

/-- C7: for every sentence list and positive target, the greedy packer's
chunks are renderings of consecutive sentence groups covering the input
exactly (no sentence split or dropped), and any chunk containing two or
more word-bearing sentences has total word count at most the target
(equivalently an over-target chunk is a single sentence). -/
theorem createChunks_greedy_bound (sentences : List Text) (t : Int)
    (_ht : 0 < t) :
    createChunksFromSentences sentences t = (packGroups sentences t).map renderChunk ∧
    (packGroups sentences t).flatten = sentences ∧
    ∀ g ∈ packGroups sentences t, g ≠ [] ∧
      (2 ≤ wordfulCount g → ((fields (renderChunk g)).length : Int) ≤ t) := by
  refine ⟨createChunks_eq_pack sentences t, ?_, ?_⟩
  · have := packAux_flatten t sentences [] 0
    simpa [packGroups] using this
  · intro g hg
    have hprops := packAux_props t sentences [] 0 (by simp [sumWords])
      (by intro h; simp [wordfulCount] at h) g hg
    refine ⟨hprops.1, fun h2 => ?_⟩
    have hsum := hprops.2 h2
    have hlen : (fields (renderChunk g)).length = sumWords g := by
      rw [fields_renderChunk, List.length_flatten, List.map_map]
      rfl
    rw [hlen]
    exact hsum

/-! ## Invalid sizing parameters in `ChunkTextBySpace` -/

/-- With a zero step (`chunkSize = overlap`) and more words than
`chunkSize`, the window loop re-runs forever at `i = 0`: it does not
return within any amount of fuel. -/
theorem bspaceLoop_zero_step (ws : List Text) (k ov : Int) (hk0 : 0 ≤ k)
    (hkl : k < (ws.length : Int)) (hstep : k - ov = 0) :
    ∀ fuel, bspaceLoop ws k ov fuel 0 = none := by
  intro fuel
  induction fuel with
  | zero => rfl
  | succ n ih =>
    simp only [bspaceLoop]
    rw [if_pos (by omega : (0 : Int) < (ws.length : Int))]
    rw [if_neg (by omega : ¬ ((ws.length : Int) < 0 + k))]
    unfold goSlice
    rw [if_pos ⟨by omega, by omega, by omega⟩]
    dsimp only
    rw [if_neg (by omega : ¬ ((0 : Int) + k = (ws.length : Int)))]
    rw [show (0 : Int) + (k - ov) = 0 by omega, ih]

/-- C2: contrary to the claim, the segmentation functions never return an
error: every normal return of `ChunkTextBySpace` carries a nil error, and
on invalid parameters (`overlap ≥ chunkSize`, non-positive step) with more
words than `chunkSize` the call does not fail fast — it never returns at
all (the window loop spins at `i = 0` forever). -/
theorem chunkTextBySpace_never_errors_and_diverges :
    (∀ (content : Text) (k ov : Int) (fuel : Nat) (chunks : List Text)
      (e : Option Text),
      ChunkTextBySpace content k ov fuel = some (.ret chunks e) → e = none) ∧
    (∀ fuel, ChunkTextBySpace (lit "a b c") 2 2 fuel = none) := by
  constructor
  · intro content k ov fuel chunks e h
    simp only [ChunkTextBySpace] at h
    split at h
    · exact (BRet.ret.injEq _ _ _ _).mp (Option.some.injEq _ _ |>.mp h) |>.2.symm
    · split at h
      · exact absurd h (by simp)
      · exact absurd h (by simp)
      · exact (BRet.ret.injEq _ _ _ _).mp (Option.some.injEq _ _ |>.mp h) |>.2.symm
  · intro fuel
    have hws : bspaceWords (lit "a b c") = [ [ 'a' ], [ 'b' ], [ 'c' ] ] := by decide
    simp only [ChunkTextBySpace]
    rw [show fields (bspaceContent (lit "a b c")) = bspaceWords (lit "a b c") from rfl,
      hws]
    rw [if_neg (by decide)]
    rw [bspaceLoop_zero_step _ 2 2 (by decide) (by decide) (by decide) fuel]

/-- C2 witness: on valid parameters the call returns with a nil error, as
the first conjunct states. -/
theorem chunkTextBySpace_never_errors_witness :
    ChunkTextBySpace (lit "x y z") 5 1 10 = some (.ret [ lit "x y z" ] none) ∧
      (none : Option Text) = none :=
  ⟨by decide,
   chunkTextBySpace_never_errors_and_diverges.1 (lit "x y z") 5 1 10
     [ lit "x y z" ] none (by decide)⟩

/-- C3: the abbreviation sentinel is never restored after sentence
splitting: on `"Mr. Smith left. He said hi."` (no line breaks, so the
normalized input is the input itself) `ChunkText` returns a chunk that
still carries the sentinel `·` in place of the abbreviation period, so the
chunk text does not match the normalized input. -/
theorem chunkText_sentinel_not_restored :
    ChunkText (lit "Mr. Smith left. He said hi.") 50 =
      ([ lit "Mr· Smith left. He said hi." ], none) ∧
    joinSp (ChunkText (lit "Mr. Smith left. He said hi.") 50).1 ≠
      lit "Mr. Smith left. He said hi." := by
  constructor
  · decide
  · decide

/-! ## Window loop of `ChunkTextBySpace` on valid parameters -/

theorem winF_props (ws : List Text) (kN stepN : Nat) (_hstep : 1 ≤ stepN)
    (hsk : stepN ≤ kN) :
    ∀ (fuel j : Nat), j < ws.length → ws.length ≤ j + fuel * stepN →
      winF ws kN stepN fuel j ≠ [] ∧
      (∀ w < (winF ws kN stepN fuel j).length,
        (winF ws kN stepN fuel j)[w]? =
          some (joinSp ((ws.drop (j + w * stepN)).take kN))) ∧
      ws.length ≤ j + ((winF ws kN stepN fuel j).length - 1) * stepN + kN ∧
      (∀ w, w + 1 < (winF ws kN stepN fuel j).length →
        j + w * stepN + kN < ws.length) := by
  intro fuel
  induction fuel with
  | zero =>
    intro j hj hfuel
    exact absurd hfuel (by omega)
  | succ n ih =>
    intro j hj hfuel
    have hwin0 : winF ws kN stepN (n + 1) j = joinSp ((ws.drop j).take kN) ::
        (if ws.length ≤ j + kN then [] else winF ws kN stepN n (j + stepN)) := rfl
    by_cases hend : ws.length ≤ j + kN
    · have hwin : winF ws kN stepN (n + 1) j = [joinSp ((ws.drop j).take kN)] := by
        rw [hwin0, if_pos hend]
      rw [hwin]
      refine ⟨by simp, ?_, by simpa using hend, by intro w hw; simp at hw⟩
      intro w hw
      simp only [List.length_singleton] at hw
      interval_cases w
      simp
    · have hj' : j + stepN < ws.length := by omega
      have hfuel' : ws.length ≤ (j + stepN) + n * stepN := by
        have : (n + 1) * stepN = stepN + n * stepN := by ring
        omega
      obtain ⟨ihne, ihget, ihlast, ihmid⟩ := ih (j + stepN) hj' hfuel'
      have hwin : winF ws kN stepN (n + 1) j =
          joinSp ((ws.drop j).take kN) :: winF ws kN stepN n (j + stepN) := by
        rw [hwin0, if_neg hend]
      rw [hwin]
      obtain ⟨m, hm⟩ : ∃ m, (winF ws kN stepN n (j + stepN)).length = m + 1 :=
        ⟨(winF ws kN stepN n (j + stepN)).length - 1,
          by have := List.length_pos.mpr ihne; omega⟩
      refine ⟨by simp, ?_, ?_, ?_⟩
      · intro w hw
        cases w with
        | zero => simp
        | succ v =>
          simp only [List.length_cons] at hw
          have hv : v < (winF ws kN stepN n (j + stepN)).length := by omega
          have := ihget v hv
          simp only [List.getElem?_cons_succ]
          rw [this]
          have harith : j + stepN + v * stepN = j + (v + 1) * stepN := by ring
          rw [harith]
      · simp only [List.length_cons, hm]
        have := ihlast
        rw [hm] at this
        have harith : j + stepN + (m + 1 - 1) * stepN = j + (m + 1 + 1 - 1) * stepN := by
          have h1 : (m + 1 + 1 - 1) * stepN = m * stepN + stepN := by
            have : m + 1 + 1 - 1 = m + 1 := by omega
            rw [this]; ring
          have h2 : (m + 1 - 1) * stepN = m * stepN := by
            have : m + 1 - 1 = m := by omega
            rw [this]
          omega
        omega
      · intro w hw
        simp only [List.length_cons] at hw
        cases w with
        | zero => simpa using (by omega : j + kN < ws.length)
        | succ v =>
          have hv : v + 1 < (winF ws kN stepN n (j + stepN)).length := by omega
          have := ihmid v hv
          have harith : j + stepN + v * stepN = j + (v + 1) * stepN := by ring
          omega

theorem bspaceLoop_eq_winF (ws : List Text) (k ov : Int) (hk : 0 < k)
    (hov : 0 ≤ ov) (hlt : ov < k) :
    ∀ (fuel j : Nat), j < ws.length →
      ws.length ≤ j + fuel * (k - ov).toNat →
      bspaceLoop ws k ov fuel (j : Int) =
        some (.ret (winF ws k.toNat (k - ov).toNat fuel j)) := by
  intro fuel
  induction fuel with
  | zero =>
    intro j hj hfuel
    exact absurd hfuel (by omega)
  | succ n ih =>
    intro j hj hfuel
    have hjlt : ((j : Int) < (ws.length : Int)) := by omega
    simp only [bspaceLoop]
    rw [if_pos hjlt]
    by_cases hcl : (ws.length : Int) < (j : Int) + k
    · -- clamped window: end = len(words), last window, loop breaks
      rw [if_pos hcl]
      unfold goSlice
      rw [if_pos ⟨by omega, by omega, by omega⟩]
      dsimp only
      rw [if_pos rfl]
      have hend : ws.length ≤ j + k.toNat := by omega
      have hslice : List.take ((ws.length : Int) - (j : Int)).toNat
          (List.drop (Int.toNat (j : Int)) ws) = (ws.drop j).take k.toNat := by
        have h1 : (Int.toNat (j : Int)) = j := by omega
        have h2 : ((ws.length : Int) - (j : Int)).toNat = ws.length - j := by omega
        rw [h1, h2]
        have hlen : (ws.drop j).length = ws.length - j := by simp
        have h3 : (ws.drop j).take (ws.length - j) = ws.drop j := by
          rw [← hlen]; exact List.take_length _
        have h4 : (ws.drop j).take k.toNat = ws.drop j :=
          List.take_of_length_le (by omega)
        rw [h3, h4]
      rw [hslice]
      show some (BOut.ret [joinSp ((ws.drop j).take k.toNat)]) = _
      have hwin0 : winF ws k.toNat (k - ov).toNat (n + 1) j =
          joinSp ((ws.drop j).take k.toNat) ::
            (if ws.length ≤ j + k.toNat then []
             else winF ws k.toNat (k - ov).toNat n (j + (k - ov).toNat)) := rfl
      rw [hwin0, if_pos hend]
    · rw [if_neg hcl]
      unfold goSlice
      rw [if_pos ⟨by omega, by omega, by omega⟩]
      dsimp only
      have hslice : List.take ((j : Int) + k - (j : Int)).toNat
          (List.drop (Int.toNat (j : Int)) ws) = (ws.drop j).take k.toNat := by
        have h1 : (Int.toNat (j : Int)) = j := by omega
        have h2 : ((j : Int) + k - (j : Int)).toNat = k.toNat := by omega
        rw [h1, h2]
      rw [hslice]
      have hwin0 : winF ws k.toNat (k - ov).toNat (n + 1) j =
          joinSp ((ws.drop j).take k.toNat) ::
            (if ws.length ≤ j + k.toNat then []
             else winF ws k.toNat (k - ov).toNat n (j + (k - ov).toNat)) := rfl
      by_cases heq : (j : Int) + k = (ws.length : Int)
      · -- the unclamped window ends exactly at the last word: loop breaks
        rw [if_pos heq]
        have hend : ws.length ≤ j + k.toNat := by omega
        rw [hwin0, if_pos hend]
      · rw [if_neg heq]
        have hj' : j + (k - ov).toNat < ws.length := by omega
        have hfuel' : ws.length ≤ (j + (k - ov).toNat) + n * (k - ov).toNat := by
          have : (n + 1) * (k - ov).toNat = (k - ov).toNat + n * (k - ov).toNat := by
            ring
          omega
        have hcast : (j : Int) + (k - ov) = ((j + (k - ov).toNat : Nat) : Int) := by
          push_cast
          omega
        rw [hcast, ih (j + (k - ov).toNat) hj' hfuel']
        dsimp only
        have hend : ¬ ws.length ≤ j + k.toNat := by omega
        rw [hwin0, if_neg hend]

/-- C4: on valid parameters (`chunkSize > 0`, `0 ≤ overlap < chunkSize`)
and more words than `chunkSize`, `ChunkTextBySpace` terminates and returns
exactly the sliding windows: chunk `w` is the words at positions
`[w*step, w*step+chunkSize)` (clamped to the end) joined by single spaces;
the word at position `p` sits in window `w` (at offset `p - w*step`)
exactly when `w*step ≤ p < w*step + chunkSize`; the last window reaches the
final word and no earlier window does. -/
theorem chunkTextBySpace_window_correct (content : Text) (k ov : Int)
    (hk : 0 < k) (hov : 0 ≤ ov) (hlt : ov < k)
    (hN : (k : Int) < ((bspaceWords content).length : Int)) (fuel : Nat)
    (hfuel : (bspaceWords content).length ≤ fuel) :
    ∃ chunks : List Text,
      ChunkTextBySpace content k ov fuel = some (.ret chunks none) ∧
      chunks ≠ [] ∧
      (∀ w < chunks.length,
        chunks[w]? = some (joinSp
          (((bspaceWords content).drop (w * (k - ov).toNat)).take k.toNat))) ∧
      (bspaceWords content).length ≤ (chunks.length - 1) * (k - ov).toNat + k.toNat ∧
      (∀ w, w + 1 < chunks.length →
        w * (k - ov).toNat + k.toNat < (bspaceWords content).length) ∧
      (∀ w p, w < chunks.length → w * (k - ov).toNat ≤ p →
        p < w * (k - ov).toNat + k.toNat →
        (((bspaceWords content).drop (w * (k - ov).toNat)).take k.toNat)[p - w * (k - ov).toNat]? =
          (bspaceWords content)[p]?) := by
  set ws := bspaceWords content with hws
  have hstep : 1 ≤ (k - ov).toNat := by omega
  have hsk : (k - ov).toNat ≤ k.toNat := by omega
  have h0 : 0 < ws.length := by omega
  have hfuel0 : ws.length ≤ 0 + fuel * (k - ov).toNat := by
    have := Nat.mul_le_mul_left fuel hstep
    omega
  have hloop := bspaceLoop_eq_winF ws k ov hk hov hlt fuel 0 h0 hfuel0
  obtain ⟨hne, hget, hlast, hmid⟩ :=
    winF_props ws k.toNat (k - ov).toNat hstep hsk fuel 0 h0 hfuel0
  refine ⟨winF ws k.toNat (k - ov).toNat fuel 0, ?_, hne, ?_, ?_, ?_, ?_⟩
  · simp only [ChunkTextBySpace]
    have hbw : fields (bspaceContent content) = ws := by rw [hws]; rfl
    rw [hbw]
    rw [if_neg (by omega : ¬ ((ws.length : Int) ≤ k))]
    rw [show ((0 : Nat) : Int) = (0 : Int) from rfl] at hloop
    rw [hloop]
  · intro w hw
    have := hget w hw
    simpa using this
  · simpa using hlast
  · intro w hw
    have := hmid w hw
    omega
  · intro w p _ hp1 hp2
    rw [List.getElem?_take, if_pos (by omega : p - w * (k - ov).toNat < k.toNat),
      List.getElem?_drop]
    congr 1
    omega

/-- C4 witness: `"a b c d e"` with `chunkSize = 3`, `overlap = 1`. -/
theorem chunkTextBySpace_window_correct_witness :
    ∃ chunks : List Text,
      ChunkTextBySpace (lit "a b c d e") 3 1 5 = some (.ret chunks none) ∧
      chunks ≠ [] ∧
      (∀ w < chunks.length,
        chunks[w]? = some (joinSp
          (((bspaceWords (lit "a b c d e")).drop (w * ((3 : Int) - 1).toNat)).take (3 : Int).toNat))) ∧
      (bspaceWords (lit "a b c d e")).length ≤
        (chunks.length - 1) * ((3 : Int) - 1).toNat + (3 : Int).toNat ∧
      (∀ w, w + 1 < chunks.length →
        w * ((3 : Int) - 1).toNat + (3 : Int).toNat < (bspaceWords (lit "a b c d e")).length) ∧
      (∀ w p, w < chunks.length → w * ((3 : Int) - 1).toNat ≤ p →
        p < w * ((3 : Int) - 1).toNat + (3 : Int).toNat →
        (((bspaceWords (lit "a b c d e")).drop (w * ((3 : Int) - 1).toNat)).take (3 : Int).toNat)[p - w * ((3 : Int) - 1).toNat]? =
          (bspaceWords (lit "a b c d e"))[p]?) :=
  chunkTextBySpace_window_correct (lit "a b c d e") 3 1 (by decide) (by decide)
    (by decide) (by decide) 5 (by decide)

/-! ## The worker-pool collector -/

theorem collectResults_eval (n : Nat) (report : Fin n → Text × Bool) :
    ∀ (order : List (Fin n)) (j : Fin n),
      collectResults n report order j =
        if j ∈ order ∧ (report j).2 = false then (report j).1 else [] := by
  have main : ∀ (order : List (Fin n)) (res : Fin n → Text) (j : Fin n),
      order.foldl (fun res i =>
        if (report i).2 then res else Function.update res i (report i).1) res j =
        if j ∈ order ∧ (report j).2 = false then (report j).1 else res j := by
    intro order
    induction order with
    | nil => intro res j; simp
    | cons o os ih =>
      intro res j
      rw [List.foldl_cons, ih]
      by_cases hmem : j ∈ os ∧ (report j).2 = false
      · rw [if_pos hmem, if_pos ⟨List.mem_cons_of_mem o hmem.1, hmem.2⟩]
      · rw [if_neg hmem]
        by_cases hjo : j = o
        · subst hjo
          by_cases herr : (report j).2
          · rw [if_pos herr, if_neg (by
              rintro ⟨-, h2⟩
              rw [herr] at h2
              exact Bool.noConfusion h2)]
          · rw [if_neg herr, Function.update_same,
              if_pos ⟨List.mem_cons_self _ _, by simpa using herr⟩]
        · have : (if (report o).2 then res else Function.update res o (report o).1) j
              = res j := by
            by_cases herr : (report o).2
            · rw [if_pos herr]
            · rw [if_neg herr, Function.update_noteq hjo]
          rw [this, if_neg (by
            rintro ⟨hmem2, h2⟩
            rcases List.mem_cons.mp hmem2 with h | h
            · exact hjo h
            · exact hmem ⟨h, h2⟩)]
  intro order j
  exact main order (fun _ => []) j

/-- C1: for every segment count, every family of per-segment transform
reports and every arrival order of worker completions covering all
segments, the pool returns exactly the trimmed non-empty contents of the
non-failed segments, indexed in increasing original position — a value
that does not depend on the arrival order at all. -/
theorem processChunks_order_independent (n : Nat) (report : Fin n → Text × Bool)
    (order : List (Fin n)) (hcover : ∀ i : Fin n, i ∈ order) :
    ProcessChunks n report order =
      (List.finRange n).filterMap (fun i =>
        if (report i).2 then none
        else
          let t := trimSpace (report i).1
          if t = [] then none else some t) := by
  unfold ProcessChunks
  apply List.filterMap_congr
  intro i _
  rw [collectResults_eval n report order i]
  by_cases herr : (report i).2
  · have hcond : ¬ (i ∈ order ∧ (report i).2 = false) := by
      rintro ⟨-, h2⟩
      rw [herr] at h2
      exact Bool.noConfusion h2
    rw [if_neg hcond, if_pos herr]
    show (if trimSpace [] = ([] : Text) then none else some (trimSpace [])) = none
    decide
  · rw [if_pos (show i ∈ order ∧ (report i).2 = false from
        ⟨hcover i, by simpa using herr⟩), if_neg herr]

/-- C1 witness: three segments (one erroring, one whitespace-only result)
collected in a scrambled completion order. -/
theorem processChunks_order_independent_witness :
    ProcessChunks 4
      (fun i => (([ " alpha ", "beta", "  ", "delta" ].map String.data).getD i [],
        i.val = 1))
      [⟨2, by omega⟩, ⟨0, by omega⟩, ⟨3, by omega⟩, ⟨1, by omega⟩] =
      (List.finRange 4).filterMap (fun i =>
        if ((fun i : Fin 4 =>
            (([ " alpha ", "beta", "  ", "delta" ].map String.data).getD i [],
              i.val = 1)) i).2 then none
        else
          let t := trimSpace ((fun i : Fin 4 =>
            (([ " alpha ", "beta", "  ", "delta" ].map String.data).getD i [],
              i.val = 1)) i).1
          if t = [] then none else some t) :=
  processChunks_order_independent 4 _ _ (by decide)

/-! ## Semaphore discipline of the pool -/

theorem countP_set (p : Phase → Bool) :
    ∀ (l : List Phase) (i : Nat) (a b : Phase), l.get? i = some a →
      (l.set i b).countP p + (if p a then 1 else 0) =
        l.countP p + (if p b then 1 else 0) := by
  intro l
  induction l with
  | nil => intro i a b h; simp at h
  | cons x xs ih =>
    intro i a b h
    cases i with
    | zero =>
      simp only [List.get?] at h
      injection h with h
      subst h
      simp only [List.set, List.countP_cons]
      omega
    | succ i =>
      simp only [List.get?] at h
      simp only [List.set, List.countP_cons]
      have := ih i a b h
      omega

theorem heldCount_set (l : List Phase) (i : Nat) (a b : Phase)
    (h : l.get? i = some a) :
    heldCount (l.set i b) + (if holdsSlot a then 1 else 0) =
      heldCount l + (if holdsSlot b then 1 else 0) :=
  countP_set holdsSlot l i a b h

theorem heldCount_replicate (n : Nat) :
    heldCount (List.replicate n Phase.idle) = 0 := by
  induction n with
  | zero => rfl
  | succ m ih =>
    rw [List.replicate_succ]
    unfold heldCount at ih ⊢
    rw [List.countP_cons]
    simp [holdsSlot, ih]

theorem inFlight_le_heldCount (s : List Phase) : inFlight s ≤ heldCount s := by
  unfold inFlight heldCount
  induction s with
  | nil => simp
  | cons x xs ih =>
    simp only [List.countP_cons]
    cases x <;> simp [holdsSlot] <;> omega

theorem poolReachable_heldCount_le (k n : Nat) (s : List Phase)
    (h : PoolReachable k n s) : heldCount s ≤ k := by
  induction h with
  | refl => simp [heldCount_replicate]
  | tail _ hstep ih =>
    cases hstep with
    | acquire i hi hk =>
      have hc := heldCount_set _ i .idle .acquired hi
      simp [holdsSlot] at hc
      omega
    | start i hi =>
      have hc := heldCount_set _ i .acquired .running hi
      simp [holdsSlot] at hc
      omega
    | finish i hi =>
      have hc := heldCount_set _ i .running .done hi
      simp [holdsSlot] at hc
      omega
    | release i hi =>
      have hc := heldCount_set _ i .done .released hi
      simp [holdsSlot] at hc
      omega

/-- C8: every reachable pool state runs at most `k` transforms at once
(a slot is held from before the transform starts until after it ends, and
acquiring requires a free slot); and when the pool can make no further
move, every worker has released its slot — no slot is leaked, whatever mix
of success, failure and cancellation the transforms saw. -/
theorem pool_bounded_concurrency_no_leak (k n : Nat) (s : List Phase)
    (h : PoolReachable k n s) :
    inFlight s ≤ k ∧
      ((∀ t, ¬ PoolStep k s t) → 1 ≤ k → ∀ p ∈ s, p = Phase.released) := by
  refine ⟨le_trans (inFlight_le_heldCount s) (poolReachable_heldCount_le k n s h), ?_⟩
  intro hstuck hk p hp
  by_contra hne
  obtain ⟨i, hi⟩ := List.mem_iff_get?.mp hp
  cases p with
  | released => exact hne rfl
  | acquired => exact hstuck _ (PoolStep.start s i hi)
  | running => exact hstuck _ (PoolStep.finish s i hi)
  | done => exact hstuck _ (PoolStep.release s i hi)
  | idle =>
    have hall : ∀ q ∈ s, ¬ holdsSlot q = true := by
      intro q hq hholds
      obtain ⟨j, hj⟩ := List.mem_iff_get?.mp hq
      cases q with
      | acquired => exact hstuck _ (PoolStep.start s j hj)
      | running => exact hstuck _ (PoolStep.finish s j hj)
      | done => exact hstuck _ (PoolStep.release s j hj)
      | idle => exact Bool.noConfusion hholds
      | released => exact Bool.noConfusion hholds
    have hzero : heldCount s = 0 := by
      unfold heldCount
      exact List.countP_eq_zero.mpr hall
    exact hstuck _ (PoolStep.acquire s i hi (by omega))

/-- C8 witness: one worker, limit 1, driven through a full
acquire/start/finish/release trace. -/
theorem pool_bounded_concurrency_no_leak_witness :
    inFlight [Phase.released] ≤ 1 ∧
      ((∀ t, ¬ PoolStep 1 [Phase.released] t) → 1 ≤ 1 →
        ∀ p ∈ [Phase.released], p = Phase.released) := by
  have s1 : PoolStep 1 [Phase.idle] [Phase.acquired] :=
    PoolStep.acquire [Phase.idle] 0 rfl (by decide)
  have s2 : PoolStep 1 [Phase.acquired] [Phase.running] :=
    PoolStep.start [Phase.acquired] 0 rfl
  have s3 : PoolStep 1 [Phase.running] [Phase.done] :=
    PoolStep.finish [Phase.running] 0 rfl
  have s4 : PoolStep 1 [Phase.done] [Phase.released] :=
    PoolStep.release [Phase.done] 0 rfl
  have hreach : PoolReachable 1 1 [Phase.released] :=
    Relation.ReflTransGen.tail
      (Relation.ReflTransGen.tail
        (Relation.ReflTransGen.tail
          (Relation.ReflTransGen.tail Relation.ReflTransGen.refl s1) s2) s3) s4
  exact pool_bounded_concurrency_no_leak 1 1 [Phase.released] hreach

/-! ## Speaker-analysis failure fallback in `ProcessTranscript` -/

/-- C9: if the speaker-analysis call errors and the cancellation signal has
not fired, `ProcessTranscript` does not abort: the run is identical to one
whose analysis succeeded with an empty reply, i.e. it proceeds through
chunking, per-segment processing and reassembly with the empty speaker map
(`ParseSpeakerAnalysis "" = ∅`), and the analysis error itself is never
surfaced (the function's only output is the final text). -/
theorem processTranscript_analysis_fallback (o : TOracle) (text : Text)
    (k ov : Int) (fuel : Nat) (herr : o.analysisErr = true)
    (hcancel : o.cancelledA = false) :
    ProcessTranscript o text k ov fuel =
      ProcessTranscript
        ⟨false, [], false, o.processed, o.cancelledP⟩ text k ov fuel ∧
    ParseSpeakerAnalysis [] = [] := by
  constructor
  · unfold ProcessTranscript
    rw [herr, hcancel]
    rfl
  · rfl

/-- C9 witness: a concrete erroring-analysis oracle. -/
theorem processTranscript_analysis_fallback_witness :
    ProcessTranscript
        ⟨true, lit "**Host**: someone", false, fun c _ => c, false⟩
        (lit "hello there world") 2 1 10 =
      ProcessTranscript
        ⟨false, [], false, fun c _ => c, false⟩
        (lit "hello there world") 2 1 10 ∧
    ParseSpeakerAnalysis [] = [] :=
  processTranscript_analysis_fallback
    ⟨true, lit "**Host**: someone", false, fun c _ => c, false⟩
    (lit "hello there world") 2 1 10 rfl rfl

/-! ## The transcript merge loop versus maximal speaker runs -/

theorem dropWhile_head_not (p : Char → Bool) :
    ∀ (s : Text) (c : Char) (rest : Text), s.dropWhile p = c :: rest → ¬ p c := by
  intro s
  induction s with
  | nil => intro c rest h; simp at h
  | cons x xs ih =>
    intro c rest h
    by_cases hx : p x
    · rw [List.dropWhile_cons, if_pos hx] at h
      exact ih c rest h
    · rw [List.dropWhile_cons, if_neg hx] at h
      injection h with h1 _
      subst h1
      exact hx

theorem trimSpace_head_not_ws (s : Text) (c : Char) (rest : Text)
    (h : trimSpace s = c :: rest) : ¬ goIsSpace c := by
  obtain ⟨w, hw, _⟩ := trimSpace_decomp s
  rw [h] at hw
  exact dropWhile_head_not goIsSpace s c (rest ++ w) (by simpa using hw)

theorem trimSpace_ne_nil_of_head (c : Char) (xs : Text) (hc : ¬ goIsSpace c) :
    trimSpace (c :: xs) ≠ [] := by
  intro h
  unfold trimSpace at h
  have h1 : ((c :: xs).dropWhile goIsSpace).reverse.dropWhile goIsSpace = [] := by
    have := congrArg List.reverse h
    simpa using this
  have h2 := List.dropWhile_eq_nil_iff.mp h1
  have h3 : (c :: xs).dropWhile goIsSpace = c :: xs := by
    rw [List.dropWhile_cons, if_neg hc]
  have : goIsSpace c := h2 c (by rw [h3]; simp)
  exact hc this

theorem speakerLineMatch_speaker_ne_nil (t : Text) (htne : t ≠ [])
    (hhead : ∀ c rest, t = c :: rest → ¬ goIsSpace c)
    (sp speech : Text) (h : speakerLineMatch t = some (sp, speech)) :
    sp ≠ [] := by
  unfold speakerLineMatch at h
  cases hidx : t.findIdx? (· = ':') with
  | none => rw [hidx] at h; exact Option.noConfusion h
  | some idx =>
    rw [hidx] at h
    dsimp only at h
    by_cases h0 : idx = 0
    · rw [if_pos h0] at h; exact Option.noConfusion h
    · rw [if_neg h0] at h
      injection h with h
      injection h with h1 _
      cases t with
      | nil => exact absurd rfl htne
      | cons c xs =>
        have hcws : ¬ goIsSpace c := hhead c xs rfl
        have htake : (c :: xs).take idx = c :: xs.take (idx - 1) := by
          cases idx with
          | zero => exact absurd rfl h0
          | succ m => simp
        rw [← h1, htake]
        exact trimSpace_ne_nil_of_head c _ hcws

theorem plinesOf_nonempty (lines : List Text) :
    ∀ p ∈ plinesOf lines, p.1 ≠ [] ∧ p.2 ≠ [] := by
  intro p hp
  obtain ⟨l, _, hf⟩ := List.mem_filterMap.mp hp
  by_cases ht : trimSpace l = []
  · simp [ht] at hf
  · simp only [ht, if_neg, if_false] at hf
    cases hm : speakerLineMatch (trimSpace l) with
    | none => rw [hm] at hf; exact Option.noConfusion hf
    | some st =>
      rw [hm] at hf
      obtain ⟨sp, speech⟩ := st
      by_cases hsp : speech = []
      · simp [hsp] at hf
      · simp only [hsp, if_neg, if_false] at hf
        injection hf with hf
        subst hf
        refine ⟨?_, hsp⟩
        exact speakerLineMatch_speaker_ne_nil (trimSpace l) ht
          (fun c rest hcr => trimSpace_head_not_ws l c rest hcr) sp speech hm

theorem joinWith_sp_merge (a b : Text) (l : List Text) :
    joinWith ([ ' ' ]) ((a ++ ' ' :: b) :: l) = joinWith ([ ' ' ]) (a :: b :: l) := by
  cases l with
  | nil => simp [joinWith]
  | cons u us => simp [joinWith]

theorem speakerRuns_cons_eq (s t : Text) (rest : List (Text × Text)) :
    speakerRuns ((s, t) :: rest) =
      match speakerRuns rest with
      | [] => [(s, [t])]
      | (s', ts) :: more =>
        if s = s' then (s, t :: ts) :: more else (s, [t]) :: (s', ts) :: more := rfl

theorem renderRuns_absorb (cs csp t : Text) (rest : List (Text × Text)) :
    renderRuns (speakerRuns ((cs, csp ++ ' ' :: t) :: rest)) =
      renderRuns (speakerRuns ((cs, csp) :: (cs, t) :: rest)) := by
  rw [speakerRuns_cons_eq cs (csp ++ ' ' :: t) rest,
    speakerRuns_cons_eq cs csp ((cs, t) :: rest),
    speakerRuns_cons_eq cs t rest]
  cases hR : speakerRuns rest with
  | nil =>
    dsimp only
    rw [if_pos rfl]
    simp only [renderRuns, List.map_cons, List.map_nil]
    rw [show joinWith ([ ' ' ]) [csp ++ ' ' :: t] = joinWith ([ ' ' ]) [csp, t] from
      joinWith_sp_merge csp t []]
  | cons hd more =>
    obtain ⟨s', ts⟩ := hd
    dsimp only
    by_cases hss : cs = s'
    · rw [if_pos hss, if_pos hss]
      dsimp only
      rw [if_pos rfl]
      simp only [renderRuns, List.map_cons]
      rw [show joinWith ([ ' ' ]) ((csp ++ ' ' :: t) :: ts) =
          joinWith ([ ' ' ]) (csp :: t :: ts) from joinWith_sp_merge csp t ts]
    · rw [if_neg hss, if_neg hss]
      dsimp only
      rw [if_pos rfl]
      simp only [renderRuns, List.map_cons]
      rw [show joinWith ([ ' ' ]) [csp ++ ' ' :: t] = joinWith ([ ' ' ]) [csp, t] from
        joinWith_sp_merge csp t []]

theorem speakerRuns_head (s t : Text) (rest : List (Text × Text)) :
    ∃ ts more, speakerRuns ((s, t) :: rest) = (s, ts) :: more := by
  rw [speakerRuns_cons_eq]
  cases speakerRuns rest with
  | nil => exact ⟨[t], [], rfl⟩
  | cons hd more =>
    obtain ⟨s', ts⟩ := hd
    by_cases hss : s = s'
    · exact ⟨t :: ts, more, by dsimp only; rw [if_pos hss]⟩
    · exact ⟨[t], (s', ts) :: more, by dsimp only; rw [if_neg hss]⟩

theorem mergeP_open :
    ∀ (pl : List (Text × Text)) (cs csp : Text) (acc : List Text),
      cs ≠ [] → csp ≠ [] → (∀ p ∈ pl, p.1 ≠ [] ∧ p.2 ≠ []) →
      mergeP pl cs csp acc = acc ++ renderRuns (speakerRuns ((cs, csp) :: pl)) := by
  intro pl
  induction pl with
  | nil =>
    intro cs csp acc hcs hcsp _
    show acc ++ flushBlock cs csp = _
    rw [speakerRuns_cons_eq]
    unfold flushBlock renderRuns
    rw [if_pos ⟨hcs, hcsp⟩]
    rfl
  | cons p rest ih =>
    intro cs csp acc hcs hcsp hpl
    obtain ⟨s, t⟩ := p
    have hs : s ≠ [] := (hpl (s, t) (List.mem_cons_self _ _)).1
    have ht : t ≠ [] := (hpl (s, t) (List.mem_cons_self _ _)).2
    have hrest : ∀ q ∈ rest, q.1 ≠ [] ∧ q.2 ≠ [] :=
      fun q hq => hpl q (List.mem_cons_of_mem _ hq)
    show mergeP ((s, t) :: rest) cs csp acc = _
    unfold mergeP
    by_cases hsc : s = cs
    · rw [if_pos hsc, if_neg hcsp]
      rw [ih cs (csp ++ ' ' :: t) acc hcs (by simp [hcsp]) hrest]
      subst hsc
      rw [renderRuns_absorb]
    · rw [if_neg hsc]
      rw [ih s t (acc ++ flushBlock cs csp) hs ht hrest]
      obtain ⟨ts, more, hrun⟩ := speakerRuns_head s t rest
      rw [speakerRuns_cons_eq cs csp ((s, t) :: rest), hrun]
      dsimp only
      rw [if_neg (fun h : cs = s => hsc h.symm)]
      unfold flushBlock renderRuns
      rw [if_pos ⟨hcs, hcsp⟩]
      simp [joinWith]

theorem mergeP_closed (pl : List (Text × Text))
    (hpl : ∀ p ∈ pl, p.1 ≠ [] ∧ p.2 ≠ []) (acc : List Text) :
    mergeP pl [] [] acc = acc ++ renderRuns (speakerRuns pl) := by
  cases pl with
  | nil => simp [mergeP, flushBlock, speakerRuns, renderRuns]
  | cons p rest =>
    obtain ⟨s, t⟩ := p
    have hs : s ≠ [] := (hpl (s, t) (List.mem_cons_self _ _)).1
    have ht : t ≠ [] := (hpl (s, t) (List.mem_cons_self _ _)).2
    show mergeP ((s, t) :: rest) [] [] acc = _
    unfold mergeP
    rw [if_neg (by simpa using hs)]
    have hfl : flushBlock [] [] = [] := by simp [flushBlock]
    rw [hfl, List.append_nil]
    exact mergeP_open rest s t acc hs ht
      (fun q hq => hpl q (List.mem_cons_of_mem _ hq))

theorem mergeLoop_eq_mergeP :
    ∀ (lines : List Text) (cs csp : Text) (acc : List Text),
      mergeLoop lines cs csp acc = mergeP (plinesOf lines) cs csp acc := by
  intro lines
  induction lines with
  | nil => intro cs csp acc; rfl
  | cons l rest ih =>
    intro cs csp acc
    show mergeLoop (l :: rest) cs csp acc = mergeP (plinesOf (l :: rest)) cs csp acc
    unfold mergeLoop plinesOf
    rw [List.filterMap_cons]
    by_cases ht : trimSpace l = []
    · rw [if_pos ht]
      simp only [ht, if_pos rfl]
      exact ih cs csp acc
    · rw [if_neg ht]
      simp only [ht, if_neg, if_false]
      cases hm : speakerLineMatch (trimSpace l) with
      | none => exact ih cs csp acc
      | some st =>
        obtain ⟨sp, speech⟩ := st
        by_cases hsp : speech = []
        · simp only [hsp, if_pos rfl]
          exact ih cs csp acc
        · simp only [hsp, if_neg, if_false]
          show (if sp = cs then mergeLoop rest cs _ acc else mergeLoop rest sp speech _) =
            mergeP ((sp, speech) :: plinesOf rest) cs csp acc
          unfold mergeP
          by_cases hsc : sp = cs
          · rw [if_pos hsc, if_pos hsc, ih]
          · rw [if_neg hsc, if_neg hsc, ih]

/-- C5 (amended): `CombineTranscriptChunks` emits exactly one block per
maximal run of consecutive same-speaker lines among the parsed speaker
lines of the newline-normalized concatenation — i.e. after discarding
blank, orphan (no `speaker:` prefix) and empty-speech lines; within a
block the speeches are joined with single spaces in appearance order and
the block is formatted `**speaker**: speech`; blocks are joined by a blank
line.  The spec's concrete example reassembles as stated. -/
theorem combineTranscriptChunks_runs (chunks : List Text) :
    CombineTranscriptChunks chunks =
      joinWith (lit "\n\n")
        (renderRuns (speakerRuns (plinesOf
          (splitOnChar '\n' (combineStep1 chunks))))) ∧
    CombineTranscriptChunks
        ([ "Host: Hi there.", "Host: How are you?", "Guest: Good." ].map String.data) =
      lit "**Host**: Hi there. How are you?\n\n**Guest**: Good." := by
  constructor
  · unfold CombineTranscriptChunks
    rw [mergeLoop_eq_mergeP, mergeP_closed _ (plinesOf_nonempty _) []]
    rw [List.nil_append]
  · decide

/-- C5 counterexample to the original claim: with an orphan line between
two `Host` lines the input has two maximal runs of consecutive same-speaker
lines, but the output is a single block (the orphan line is dropped and the
Host runs merge), so the block count does not equal the run count. -/
theorem combineTranscriptChunks_orphan_counterexample :
    ¬ ((splitOnSub (lit "\n\n")
        (CombineTranscriptChunks ([ "Host: a", "junk", "Host: b" ].map String.data))).length =
      countSpeakerRuns ((splitOnChar '\n'
        (combineStep1 ([ "Host: a", "junk", "Host: b" ].map String.data))).map lineSpeakerOf)) ∧
    CombineTranscriptChunks ([ "Host: a", "junk", "Host: b" ].map String.data) =
      lit "**Host**: a b" ∧
    countSpeakerRuns ((splitOnChar '\n'
      (combineStep1 ([ "Host: a", "junk", "Host: b" ].map String.data))).map lineSpeakerOf) = 2 := by
  refine ⟨by decide, by decide, by decide⟩

/-! ## Speaker-analysis parsing -/

/-- C6: `ParseSpeakerAnalysis` (a) maps empty input to the empty mapping
and, being a total function into a map, never signals an error; (b) skips
every line before the first line whose trimmed form starts with the list
marker `-`; (c) ignores a line whose parsed role is already mapped (first
occurrence wins); (d) on the spec's example — preamble, aggregate
`Total Speakers` bullet, two speaker bullets and a duplicate `Host`
bullet — produces exactly `Host ↦ Alex, Guest 1 ↦ Sam`. -/
theorem parseSpeakerAnalysis_properties :
    ParseSpeakerAnalysis [] = [] ∧
    (∀ (line : Text) (rest : List Text) (m : List (Text × Text)),
      (trimSpace line).headD ' ' ≠ '-' →
      parseLines (line :: rest) false m = parseLines rest false m) ∧
    (∀ (m : List (Text × Text)) (t role name v : Text),
      roleNameOfLine t = some (role, name) → lookupRole m role = some v →
      parseLineStep m t = m) ∧
    ParseSpeakerAnalysis (lit "Speaker analysis:\n- Total Speakers: 2\n- Host: Alex, leads the discussion\n- Guest 1: Sam, industry expert\n- Host: Robin, second mention ignored") =
      [(lit "Host", lit "Alex"), (lit "Guest 1", lit "Sam")] := by
  refine ⟨rfl, ?_, ?_, by decide⟩
  · intro line rest m h
    simp only [parseLines, Bool.false_eq_true, if_false]
    rw [if_neg h]
  · intro m t role name v hrn hl
    unfold parseLineStep
    rw [hrn]
    dsimp only
    by_cases hcond : role ≠ [] ∧ name ≠ [] ∧ role ≠ lit "Total Speakers"
    · rw [if_pos hcond, hl]
    · rw [if_neg hcond]

/-- C6 witness: a non-marker preamble line is skipped; a duplicate role
line leaves the mapping unchanged. -/
theorem parseSpeakerAnalysis_properties_witness :
    parseLines ([ lit "Some preamble text" ]) false [] = parseLines [] false [] ∧
    parseLineStep [(lit "Host", lit "Alex")] (lit "- Host: Robin, dup") =
      [(lit "Host", lit "Alex")] :=
  ⟨parseSpeakerAnalysis_properties.2.1 (lit "Some preamble text") [] [] (by decide),
   parseSpeakerAnalysis_properties.2.2.1 [(lit "Host", lit "Alex")]
     (lit "- Host: Robin, dup") (lit "Host") (lit "Robin") (lit "Alex")
     (by decide) (by decide)⟩

/-- C7 witness at a concrete sentence list and target. -/
theorem createChunks_greedy_bound_witness :
    createChunksFromSentences ([ "a b.", "c d.", "e f g h i." ].map String.data) 4 =
      (packGroups ([ "a b.", "c d.", "e f g h i." ].map String.data) 4).map renderChunk ∧
    (packGroups ([ "a b.", "c d.", "e f g h i." ].map String.data) 4).flatten =
      ([ "a b.", "c d.", "e f g h i." ].map String.data) ∧
    ∀ g ∈ packGroups ([ "a b.", "c d.", "e f g h i." ].map String.data) 4, g ≠ [] ∧
      (2 ≤ wordfulCount g → ((fields (renderChunk g)).length : Int) ≤ 4) :=
  createChunks_greedy_bound ([ "a b.", "c d.", "e f g h i." ].map String.data) 4
    (by decide)

end Cutcrap
